import Mathlib

/-!
Verification of the safety-governed motor actuation layer of
`#3_MCPWM_DC_Motor_Control/Motor_Test/MCPWM_Test_Temp` (`MCPWM_Test_Temp.h`
and `MCPWM_Test_Temp.cpp`).

Shallow embedding conventions:
* C++ `float` percentages and voltages are modelled as exact rationals (`ℚ`);
  the spec's properties (convergence to the exact target, threshold
  comparisons) are real-number properties of the algorithm.
* The hardware environment (fault pin reads, ADC reads) is modelled as input
  streams consumed one value per call, threaded through execution by explicit
  read indices (`fi` for digital fault reads, `vi` for analog supply reads).
* Observable backend effects (`drive(pct)`, `coast()`, `delay(ms)`) are
  recorded in an event trace, in execution order.
* Wall-clock time advances only at `delay` calls, so the bounded overvoltage
  wait loop (`while (millis() - t0 < 3000) { ...; delay(10); }`) performs at
  most 3000 / 10 = 300 polls.
* Configuration pins (`FAULT_PIN`, `SUPPLY_ADC_PIN`) are fields of the
  environment; the shipped values from the source are separate constants.
-/

namespace MCPWMTemp

/-- Observable backend effect, in execution order. -/
inductive Event where
  | drive (pct : ℚ)
  | coast
  | delayMs (ms : ℕ)
deriving DecidableEq, Repr

/-- How a `safeRampTo` call ended: ran to completion, early return on
fault (`coast(); return;`), or early return on an overvoltage trip. -/
inductive ExitKind where
  | completed
  | faultAbort
  | ovAbort
deriving DecidableEq, Repr

/-- Hardware environment: configuration pins and the input streams read by
`digitalRead` (`true` = HIGH) and `analogRead` (raw ADC counts). -/
structure Env where
  faultPin : ℤ
  supplyAdcPin : ℤ
  digitalReads : ℕ → Bool
  analogReads : ℕ → ℤ

-- -------------------- configuration constants (MCPWM_Test_Temp.h) --------

/-- `constexpr int FAULT_PIN = -1;` (shipped value; -1 disables). -/
def FAULT_PIN : ℤ := -1

/-- `constexpr bool FAULT_ACTIVE_LOW = true;` -/
def FAULT_ACTIVE_LOW : Bool := true

/-- `constexpr float MAX_SLEW_STEP_PCT = 3.0f;` -/
def MAX_SLEW_STEP_PCT : ℚ := 3

/-- `constexpr uint32_t SLEW_STEP_MS = 18;` -/
def SLEW_STEP_MS : ℕ := 18

/-- `constexpr float COAST_BEFORE_JUMP_PCT = 12.0f;` -/
def COAST_BEFORE_JUMP_PCT : ℚ := 12

/-- `constexpr uint32_t COAST_BEFORE_JUMP_MS = 90;` -/
def COAST_BEFORE_JUMP_MS : ℕ := 90

/-- `constexpr uint32_t COAST_AFTER_JUMP_MS = 60;` -/
def COAST_AFTER_JUMP_MS : ℕ := 60

/-- `constexpr int SUPPLY_ADC_PIN = -1;` (shipped value; -1 disables). -/
def SUPPLY_ADC_PIN : ℤ := -1

/-- `constexpr float VDIV_RATIO = 11.0f;` -/
def VDIV_RATIO : ℚ := 11

/-- `constexpr float VBUS_OV_LIMIT_VOLTS = 28.0f;` -/
def VBUS_OV_LIMIT_VOLTS : ℚ := 28

/-- `constexpr float VBUS_CLEAR_HYS_VOLTS = 26.5f;` -/
def VBUS_CLEAR_HYS_VOLTS : ℚ := 53 / 2

/-- Overvoltage wait-loop poll period: `delay(10)` in `guardOverVoltage`. -/
def OV_POLL_MS : ℕ := 10

/-- Maximum number of wait-loop polls: the loop runs while
`millis() - t0 < 3000` and each iteration advances time by 10 ms,
so at most 3000 / 10 = 300 iterations occur. -/
def OV_WAIT_POLLS : ℕ := 300

-- -------------------- helpers --------------------

/-- `static inline float clampPct(float p)` from MCPWM_Test_Temp.h line 73. -/
def clampPct (p : ℚ) : ℚ := if p < 0 then 0 else if p > 100 then 100 else p

/-- `float readVbusVolts()` from MCPWM_Test_Temp.cpp lines 24-36 (the
generic `analogRead` branch): returns -1 when the supply ADC pin is
disabled, else scales the raw reading by the approximate full-scale
millivolt conversion and the divider ratio. Consumes analog read `vi`. -/
def readVbusVolts (env : Env) (vi : ℕ) : ℚ :=
  if env.supplyAdcPin < 0 then -1
  else ((env.analogReads vi : ℚ) / 4095 * 1100) / 1000 * VDIV_RATIO

/-- `bool faultActive()` from MCPWM_Test_Temp.cpp lines 39-45: false when the
fault pin is disabled; otherwise reads the pin (consuming digital read `fi`)
and applies the configured polarity (`LOW` = `false` is active when
`FAULT_ACTIVE_LOW`). Returns the verdict and the next read index. -/
def faultActiveStep (env : Env) (fi : ℕ) : Bool × ℕ :=
  if env.faultPin < 0 then (false, fi)
  else
    (if FAULT_ACTIVE_LOW then !(env.digitalReads fi) else env.digitalReads fi, fi + 1)

/-- The wait-loop clear condition `vb >= 0.0f && vb < VBUS_CLEAR_HYS_VOLTS`
from MCPWM_Test_Temp.h line 169. -/
def ovClearCond (vb : ℚ) : Bool := decide (0 ≤ vb ∧ vb < VBUS_CLEAR_HYS_VOLTS)

/-- The post-trip bounded wait loop of `guardOverVoltage`
(MCPWM_Test_Temp.h lines 165-172): while polls remain, read the supply
voltage; break on the clear condition, otherwise `delay(10)` and repeat.
Returns the next analog read index and the emitted delay events. -/
def ovWait (env : Env) : ℕ → ℕ → ℕ × List Event
  | vi, 0 => (vi, [])
  | vi, fuel + 1 =>
    if ovClearCond (readVbusVolts env vi) then (vi + 1, [])
    else
      let r := ovWait env (vi + 1) fuel
      (r.1, Event.delayMs OV_POLL_MS :: r.2)

/-- Result of one `guardOverVoltage` call: the returned boolean, the next
analog read index, and the events it emitted (its own `coastFn()` call and
wait-loop delays). -/
structure GuardResult where
  tripped : Bool
  vi : ℕ
  events : List Event
deriving DecidableEq, Repr

/-- `template <typename CoastFunc> bool guardOverVoltage(...)` from
MCPWM_Test_Temp.h lines 155-177: no trip when sensing is disabled; otherwise
read the voltage and, when `vb >= 0 && vb > VBUS_OV_LIMIT_VOLTS`, invoke
`coastFn()`, run the bounded wait loop, and return true; else return false. -/
def guardOverVoltage (env : Env) (vi : ℕ) : GuardResult :=
  if env.supplyAdcPin < 0 then ⟨false, vi, []⟩
  else
    let vb := readVbusVolts env vi
    if 0 ≤ vb ∧ vb > VBUS_OV_LIMIT_VOLTS then
      let w := ovWait env (vi + 1) OV_WAIT_POLLS
      ⟨true, w.1, Event.coast :: w.2⟩
    else ⟨false, vi + 1, []⟩

/-- Result of a `safeRampTo` call: final `lastPct`, next read indices,
event trace, and how the call ended. -/
structure RampResult where
  last : ℚ
  fi : ℕ
  vi : ℕ
  events : List Event
  exit : ExitKind
deriving DecidableEq, Repr

/-- The step loop of `safeRampTo` (MCPWM_Test_Temp.h lines 223-238): each
iteration advances `lastPct` by `stepSize`, then re-checks fault
(`coast(); return;`) and overvoltage (`lastPct = 0; return;`), and
otherwise calls `drive(lastPct)` followed by `delay(SLEW_STEP_MS)`. -/
def safeRampLoop (env : Env) (stepSize : ℚ) :
    ℕ → ℚ → ℕ → ℕ → RampResult
  | 0, last, fi, vi => ⟨last, fi, vi, [], ExitKind.completed⟩
  | n + 1, last, fi, vi =>
    let last1 := last + stepSize
    let fr := faultActiveStep env fi
    if fr.1 then ⟨last1, fr.2, vi, [Event.coast], ExitKind.faultAbort⟩
    else
      let g := guardOverVoltage env vi
      if g.tripped then ⟨0, fr.2, g.vi, g.events, ExitKind.ovAbort⟩
      else
        let r := safeRampLoop env stepSize n last1 fr.2 g.vi
        ⟨r.last, r.fi, r.vi,
          Event.drive last1 :: Event.delayMs SLEW_STEP_MS :: r.events, r.exit⟩

/-- `int steps = (int)ceilf(fabsf(delta) / MAX_SLEW_STEP_PCT); if (steps < 1)
steps = 1;` from MCPWM_Test_Temp.h lines 218-220. -/
def rampSteps (delta : ℚ) : ℕ :=
  (if (⌈|delta| / MAX_SLEW_STEP_PCT⌉ : ℤ) < 1 then 1
   else ⌈|delta| / MAX_SLEW_STEP_PCT⌉).toNat

/-- The body of `safeRampTo` after the entry fault/overvoltage checks have
passed (MCPWM_Test_Temp.h lines 212-244): optional coast-before-jump
bracket, the step loop, and — only when the loop ran to completion — the
optional coast-after-jump bracket. `target` is already clamped. -/
def rampCore (env : Env) (fi vi : ℕ) (lastPct target : ℚ) : RampResult :=
  let delta := target - lastPct
  let steps := rampSteps delta
  let r := safeRampLoop env (delta / (steps : ℚ)) steps lastPct fi vi
  let pre : List Event :=
    if COAST_BEFORE_JUMP_PCT ≤ |delta| then
      [Event.coast, Event.delayMs COAST_BEFORE_JUMP_MS]
    else []
  let post : List Event :=
    if r.exit = ExitKind.completed ∧ COAST_BEFORE_JUMP_PCT ≤ |delta| then
      [Event.coast, Event.delayMs COAST_AFTER_JUMP_MS]
    else []
  ⟨r.last, r.fi, r.vi, pre ++ r.events ++ post, r.exit⟩

/-- `template <...> void safeRampTo(...)` from MCPWM_Test_Temp.h lines
192-245: clamp the target, compute `delta`, short-circuit on
`faultActive()` (`coast(); return;` — `lastPct` untouched) and on
`guardOverVoltage` (`lastPct = 0; return;` — the coast happened inside the
guard), then run the bracketed step loop. -/
def safeRampTo (env : Env) (fi vi : ℕ) (lastPct targetPct : ℚ) : RampResult :=
  let fr := faultActiveStep env fi
  if fr.1 then ⟨lastPct, fr.2, vi, [Event.coast], ExitKind.faultAbort⟩
  else
    let g := guardOverVoltage env vi
    if g.tripped then ⟨0, fr.2, g.vi, g.events, ExitKind.ovAbort⟩
    else rampCore env fr.2 g.vi lastPct (clampPct targetPct)

-- -------------------- trace observations --------------------

/-- Number of `drive` events in a trace. -/
def driveCount : List Event → ℕ
  | [] => 0
  | Event.drive _ :: es => driveCount es + 1
  | _ :: es => driveCount es

/-- Number of `coast` events in a trace. -/
def coastCount : List Event → ℕ
  | [] => 0
  | Event.coast :: es => coastCount es + 1
  | _ :: es => coastCount es

/-- The duty values passed to `drive`, in order. -/
def drives : List Event → List ℚ
  | [] => []
  | Event.drive p :: es => p :: drives es
  | _ :: es => drives es

/-- The event trace of an uninterrupted run of the step loop starting from
`last` with step `s`: `n` blocks of `drive; delay(SLEW_STEP_MS)`. -/
def stepEvents : ℚ → ℚ → ℕ → List Event
  | _, _, 0 => []
  | last, s, n + 1 =>
    Event.drive (last + s) :: Event.delayMs SLEW_STEP_MS ::
      stepEvents (last + s) s n

-- -------------------- concrete environments --------------------

/-- The shipped configuration environment: both interlock pins disabled,
arbitrary input streams. -/
def shippedEnv (dr : ℕ → Bool) (ar : ℕ → ℤ) : Env :=
  ⟨FAULT_PIN, SUPPLY_ADC_PIN, dr, ar⟩

/-- A fully inert environment (shipped pins, constant streams). -/
def inertEnv : Env := ⟨-1, -1, fun _ => true, fun _ => 0⟩

/-- Environment with the fault input enabled on pin 0; the line reads HIGH
(inactive, since `FAULT_ACTIVE_LOW`) for the first two reads and LOW
(active) afterwards. -/
def faultEnv : Env := ⟨0, -1, fun i => decide (i < 2), fun _ => 0⟩

/-- Environment with the fault input enabled and active (LOW) from the
start. -/
def faultNowEnv : Env := ⟨0, -1, fun _ => false, fun _ => 0⟩

/-- Environment with supply sensing enabled on pin 0: the first analog read
is 10000 counts (about 29.55 V, above the 28 V trip), later reads are 9200
counts (about 27.18 V, inside the hysteresis band). -/
def ovBandEnv : Env := ⟨-1, 0, fun _ => true, fun i => if i = 0 then 10000 else 9200⟩

/-- Environment with supply sensing enabled: first analog read 10000 counts
(trip), later raw reads negative, making `readVbusVolts` negative. -/
def ovNegEnv : Env := ⟨-1, 0, fun _ => true, fun i => if i = 0 then 10000 else -1⟩

-- ==================== general lemmas ====================

theorem clampPct_nonneg (p : ℚ) : 0 ≤ clampPct p := by
  unfold clampPct; split_ifs <;> linarith

theorem clampPct_le (p : ℚ) : clampPct p ≤ 100 := by
  unfold clampPct; split_ifs <;> linarith

theorem ovWait_no_drive (env : Env) :
    ∀ (fuel vi : ℕ) (p : ℚ), Event.drive p ∉ (ovWait env vi fuel).2 := by
  intro fuel
  induction fuel with
  | zero => intro vi p; simp [ovWait]
  | succ m ih =>
    intro vi p
    simp only [ovWait]
    split_ifs
    · simp
    · simpa using ih (vi + 1) p

theorem guard_tripped_shape (env : Env) (vi : ℕ)
    (h : (guardOverVoltage env vi).tripped = true) :
    ∃ w, (guardOverVoltage env vi).events = Event.coast :: w ∧
      ∀ p : ℚ, Event.drive p ∉ Event.coast :: w := by
  by_cases hp : env.supplyAdcPin < 0
  · simp [guardOverVoltage, hp] at h
  · by_cases ht : 0 ≤ readVbusVolts env vi ∧ readVbusVolts env vi > VBUS_OV_LIMIT_VOLTS
    · refine ⟨(ovWait env (vi + 1) OV_WAIT_POLLS).2, ?_, ?_⟩
      · simp [guardOverVoltage, hp, ht]
      · intro p
        simp only [List.mem_cons]
        rintro (h1 | h2)
        · exact Event.noConfusion h1
        · exact ovWait_no_drive env OV_WAIT_POLLS (vi + 1) p h2
    · simp [guardOverVoltage, hp, ht] at h

theorem guard_no_drive (env : Env) (vi : ℕ) (p : ℚ) :
    Event.drive p ∉ (guardOverVoltage env vi).events := by
  by_cases h : (guardOverVoltage env vi).tripped = true
  · obtain ⟨w, hw, hnd⟩ := guard_tripped_shape env vi h
    rw [hw]; exact hnd p
  · by_cases hp : env.supplyAdcPin < 0
    · simp [guardOverVoltage, hp]
    · by_cases ht : 0 ≤ readVbusVolts env vi ∧ readVbusVolts env vi > VBUS_OV_LIMIT_VOLTS
      · exact absurd (by simp [guardOverVoltage, hp, ht]) h
      · simp [guardOverVoltage, hp, ht]

theorem ovWait_full (env : Env) :
    ∀ (fuel vi : ℕ),
      (∀ j, j < fuel → ovClearCond (readVbusVolts env (vi + j)) = false) →
      ovWait env vi fuel = (vi + fuel, List.replicate fuel (Event.delayMs OV_POLL_MS)) := by
  intro fuel
  induction fuel with
  | zero => intro vi _; simp [ovWait]
  | succ m ih =>
    intro vi h
    have h0 : ovClearCond (readVbusVolts env vi) = false := by
      simpa using h 0 (Nat.succ_pos m)
    have hrest : ∀ j, j < m → ovClearCond (readVbusVolts env (vi + 1 + j)) = false := by
      intro j hj
      have := h (j + 1) (by omega)
      simpa [Nat.add_assoc, Nat.add_comm 1 j] using this
    simp only [ovWait, h0, Bool.false_eq_true, if_false]
    rw [ih (vi + 1) hrest]
    simp [List.replicate_succ]
    omega

theorem ovWait_early (env : Env) :
    ∀ (fuel vi : ℕ),
      (ovWait env vi fuel).2.length < fuel →
      ∃ j, j < fuel ∧ ovClearCond (readVbusVolts env (vi + j)) = true := by
  intro fuel
  induction fuel with
  | zero => intro vi h; omega
  | succ m ih =>
    intro vi h
    by_cases h0 : ovClearCond (readVbusVolts env vi) = true
    · exact ⟨0, Nat.succ_pos m, by simpa using h0⟩
    · have h0' : ovClearCond (readVbusVolts env vi) = false := by
        simpa using h0
      simp only [ovWait, h0', Bool.false_eq_true, if_false, List.length_cons] at h
      obtain ⟨j, hj, hc⟩ := ih (vi + 1) (by omega)
      exact ⟨j + 1, by omega, by simpa [Nat.add_assoc, Nat.add_comm 1 j] using hc⟩

theorem stepEvents_driveCount (s : ℚ) :
    ∀ (n : ℕ) (last : ℚ), driveCount (stepEvents last s n) = n := by
  intro n
  induction n with
  | zero => intro last; simp [stepEvents, driveCount]
  | succ m ih => intro last; simp [stepEvents, driveCount, ih]

theorem stepEvents_coastCount (s : ℚ) :
    ∀ (n : ℕ) (last : ℚ), coastCount (stepEvents last s n) = 0 := by
  intro n
  induction n with
  | zero => intro last; simp [stepEvents, coastCount]
  | succ m ih => intro last; simp [stepEvents, coastCount, ih]

theorem safeRampLoop_uninterrupted (env : Env) (s : ℚ)
    (hf : ∀ k, (faultActiveStep env k).1 = false)
    (hg : ∀ k, (guardOverVoltage env k).tripped = false) :
    ∀ (n : ℕ) (last : ℚ) (fi vi : ℕ),
      (safeRampLoop env s n last fi vi).last = last + n * s ∧
      (safeRampLoop env s n last fi vi).events = stepEvents last s n ∧
      (safeRampLoop env s n last fi vi).exit = ExitKind.completed := by
  intro n
  induction n with
  | zero => intro last fi vi; simp [safeRampLoop, stepEvents]
  | succ m ih =>
    intro last fi vi
    obtain ⟨ih1, ih2, ih3⟩ := ih (last + s) (faultActiveStep env fi).2 (guardOverVoltage env vi).vi
    simp only [safeRampLoop, hf fi, hg vi, Bool.false_eq_true, if_false, stepEvents]
    refine ⟨?_, ?_, ih3⟩
    · rw [ih1]; push_cast; ring
    · rw [ih2]

theorem rampSteps_pos (d : ℚ) : 1 ≤ rampSteps d := by
  unfold rampSteps
  split_ifs with h
  · simp
  · omega

theorem rampSteps_eq_max (d : ℚ) :
    rampSteps d = max 1 (⌈|d| / MAX_SLEW_STEP_PCT⌉).toNat := by
  unfold rampSteps
  split_ifs with h <;> omega

theorem rampValue_bounds (L tgt : ℚ) (h0 : 0 ≤ L) (h1 : L ≤ 100)
    (h2 : 0 ≤ tgt) (h3 : tgt ≤ 100) (st : ℕ) (hst : 1 ≤ st) :
    ∀ k : ℕ, k ≤ st →
      0 ≤ L + (k : ℚ) * ((tgt - L) / (st : ℚ)) ∧
      L + (k : ℚ) * ((tgt - L) / (st : ℚ)) ≤ 100 := by
  intro k hk
  have hstQ : (0 : ℚ) < (st : ℚ) := by exact_mod_cast Nat.lt_of_lt_of_le Nat.zero_lt_one hst
  have hkQ : (k : ℚ) ≤ (st : ℚ) := by exact_mod_cast hk
  have hk0 : (0 : ℚ) ≤ (k : ℚ) := Nat.cast_nonneg k
  have key : L + (k : ℚ) * ((tgt - L) / (st : ℚ)) =
      (L * ((st : ℚ) - (k : ℚ)) + tgt * (k : ℚ)) / (st : ℚ) := by
    field_simp
    ring
  constructor
  · rw [key]
    apply div_nonneg _ hstQ.le
    have ha : (0 : ℚ) ≤ L * ((st : ℚ) - (k : ℚ)) :=
      mul_nonneg h0 (by linarith)
    have hb : (0 : ℚ) ≤ tgt * (k : ℚ) := mul_nonneg h2 hk0
    linarith
  · rw [key, div_le_iff₀ hstQ]
    have ha : (0 : ℚ) ≤ (100 - L) * ((st : ℚ) - (k : ℚ)) :=
      mul_nonneg (by linarith) (by linarith)
    have hb : (0 : ℚ) ≤ (100 - tgt) * (k : ℚ) := mul_nonneg (by linarith) hk0
    nlinarith


theorem safeRampLoop_bounds (env : Env) (s : ℚ) :
    ∀ (n : ℕ) (last : ℚ) (fi vi : ℕ),
      (∀ k : ℕ, k ≤ n → 0 ≤ last + (k : ℚ) * s ∧ last + (k : ℚ) * s ≤ 100) →
      (∀ p, Event.drive p ∈ (safeRampLoop env s n last fi vi).events →
        0 ≤ p ∧ p ≤ 100) ∧
      0 ≤ (safeRampLoop env s n last fi vi).last ∧
      (safeRampLoop env s n last fi vi).last ≤ 100 := by
  intro n
  induction n with
  | zero =>
    intro last fi vi h
    refine ⟨by simp [safeRampLoop], ?_⟩
    simpa using h 0 (Nat.le_refl 0)
  | succ m ih =>
    intro last fi vi h
    have h1 : 0 ≤ last + s ∧ last + s ≤ 100 := by
      have := h 1 (by omega)
      simpa using this
    by_cases hfa : (faultActiveStep env fi).1 = true
    · simp only [safeRampLoop, hfa, if_true]
      exact ⟨by simp, h1⟩
    · have hfa' : (faultActiveStep env fi).1 = false := by simpa using hfa
      by_cases hg : (guardOverVoltage env vi).tripped = true
      · simp only [safeRampLoop, hfa', Bool.false_eq_true, if_false, hg, if_true]
        refine ⟨?_, le_refl 0, by norm_num⟩
        intro p hp
        exact absurd hp (guard_no_drive env vi p)
      · have hg' : (guardOverVoltage env vi).tripped = false := by simpa using hg
        have hrest : ∀ k : ℕ, k ≤ m →
            0 ≤ (last + s) + (k : ℚ) * s ∧ (last + s) + (k : ℚ) * s ≤ 100 := by
          intro k hk
          have hk1 := h (k + 1) (by omega)
          push_cast at hk1
          constructor
          · linarith [hk1.1]
          · linarith [hk1.2]
        obtain ⟨ihd, ihl⟩ :=
          ih (last + s) (faultActiveStep env fi).2 (guardOverVoltage env vi).vi hrest
        simp only [safeRampLoop, hfa', Bool.false_eq_true, if_false, hg']
        refine ⟨?_, ihl⟩
        intro p hp
        simp only [List.mem_cons] at hp
        rcases hp with h3 | h3 | h3
        · cases h3
          exact h1
        · exact Event.noConfusion h3
        · exact ihd p h3

theorem safeRampLoop_faultAbort (env : Env) (s : ℚ) :
    ∀ (n : ℕ) (last : ℚ) (fi vi : ℕ),
      (safeRampLoop env s n last fi vi).exit = ExitKind.faultAbort →
      (safeRampLoop env s n last fi vi).last =
        last + ((driveCount (safeRampLoop env s n last fi vi).events : ℚ) + 1) * s ∧
      (safeRampLoop env s n last fi vi).events.getLast? = some Event.coast := by
  intro n
  induction n with
  | zero =>
    intro last fi vi h
    simp only [safeRampLoop] at h
    exact ExitKind.noConfusion h
  | succ m ih =>
    intro last fi vi h
    by_cases hfa : (faultActiveStep env fi).1 = true
    · simp only [safeRampLoop, hfa, if_true]
      constructor
      · simp only [driveCount]
        push_cast
        ring
      · simp
    · have hfa' : (faultActiveStep env fi).1 = false := by simpa using hfa
      by_cases hg : (guardOverVoltage env vi).tripped = true
      · simp only [safeRampLoop, hfa', Bool.false_eq_true, if_false, hg, if_true] at h
        exact ExitKind.noConfusion h
      · have hg' : (guardOverVoltage env vi).tripped = false := by simpa using hg
        simp only [safeRampLoop, hfa', Bool.false_eq_true, if_false, hg'] at h ⊢
        obtain ⟨ih1, ih2⟩ :=
          ih (last + s) (faultActiveStep env fi).2 (guardOverVoltage env vi).vi h
        constructor
        · rw [ih1]
          simp only [driveCount]
          push_cast
          ring
        · cases hev : (safeRampLoop env s m (last + s) (faultActiveStep env fi).2
              (guardOverVoltage env vi).vi).events with
          | nil =>
            rw [hev] at ih2
            simp at ih2
          | cons a l =>
            rw [hev] at ih2
            rw [List.getLast?_cons_cons, List.getLast?_cons_cons]
            exact ih2

theorem safeRampLoop_ovAbort (env : Env) (s : ℚ) :
    ∀ (n : ℕ) (last : ℚ) (fi vi : ℕ),
      (safeRampLoop env s n last fi vi).exit = ExitKind.ovAbort →
      (safeRampLoop env s n last fi vi).last = 0 ∧
      ∃ pre suf, (safeRampLoop env s n last fi vi).events = pre ++ Event.coast :: suf ∧
        ∀ p : ℚ, Event.drive p ∉ Event.coast :: suf := by
  intro n
  induction n with
  | zero =>
    intro last fi vi h
    simp only [safeRampLoop] at h
    exact ExitKind.noConfusion h
  | succ m ih =>
    intro last fi vi h
    by_cases hfa : (faultActiveStep env fi).1 = true
    · simp only [safeRampLoop, hfa, if_true] at h
      exact ExitKind.noConfusion h
    · have hfa' : (faultActiveStep env fi).1 = false := by simpa using hfa
      by_cases hg : (guardOverVoltage env vi).tripped = true
      · simp only [safeRampLoop, hfa', Bool.false_eq_true, if_false, hg, if_true]
        obtain ⟨w, hw, hnd⟩ := guard_tripped_shape env vi hg
        refine ⟨by simp, [], w, ?_, hnd⟩
        simpa using hw
      · have hg' : (guardOverVoltage env vi).tripped = false := by simpa using hg
        simp only [safeRampLoop, hfa', Bool.false_eq_true, if_false, hg'] at h ⊢
        obtain ⟨ih1, pre, suf, ih2, ih3⟩ :=
          ih (last + s) (faultActiveStep env fi).2 (guardOverVoltage env vi).vi h
        refine ⟨ih1, Event.drive (last + s) :: Event.delayMs SLEW_STEP_MS :: pre, suf, ?_, ih3⟩
        rw [ih2]
        simp

theorem safeRampTo_ovAbort_shape (env : Env) (fi vi : ℕ) (L T : ℚ)
    (h : (safeRampTo env fi vi L T).exit = ExitKind.ovAbort) :
    (safeRampTo env fi vi L T).last = 0 ∧
    ∃ pre suf, (safeRampTo env fi vi L T).events = pre ++ Event.coast :: suf ∧
      ∀ p : ℚ, Event.drive p ∉ Event.coast :: suf := by
  by_cases hfa : (faultActiveStep env fi).1 = true
  · simp only [safeRampTo, hfa, if_true] at h
    exact ExitKind.noConfusion h
  · have hfa' : (faultActiveStep env fi).1 = false := by simpa using hfa
    by_cases hg : (guardOverVoltage env vi).tripped = true
    · simp only [safeRampTo, hfa', Bool.false_eq_true, if_false, hg, if_true]
      obtain ⟨w, hw, hnd⟩ := guard_tripped_shape env vi hg
      refine ⟨by simp, [], w, ?_, hnd⟩
      simpa using hw
    · have hg' : (guardOverVoltage env vi).tripped = false := by simpa using hg
      simp only [safeRampTo, hfa', Bool.false_eq_true, if_false, hg', rampCore] at h ⊢
      obtain ⟨ih1, pre, suf, ih2, ih3⟩ :=
        safeRampLoop_ovAbort env _ _ L (faultActiveStep env fi).2 (guardOverVoltage env vi).vi h
      refine ⟨ih1, (if COAST_BEFORE_JUMP_PCT ≤ |clampPct T - L| then
        [Event.coast, Event.delayMs COAST_BEFORE_JUMP_MS] else []) ++ pre, suf, ?_, ih3⟩
      rw [h, ih2]
      simp

theorem rampSteps_cast_ne_zero (d : ℚ) : ((rampSteps d : ℕ) : ℚ) ≠ 0 := by
  have h : 0 < rampSteps d := rampSteps_pos d
  exact Nat.cast_ne_zero.mpr h.ne'

theorem safeRampTo_uninterrupted (env : Env)
    (hf : ∀ k, (faultActiveStep env k).1 = false)
    (hg : ∀ k, (guardOverVoltage env k).tripped = false)
    (fi vi : ℕ) (L T : ℚ) :
    (safeRampTo env fi vi L T).exit = ExitKind.completed ∧
    (safeRampTo env fi vi L T).last = clampPct T ∧
    (safeRampTo env fi vi L T).events =
      (if COAST_BEFORE_JUMP_PCT ≤ |clampPct T - L| then
        [Event.coast, Event.delayMs COAST_BEFORE_JUMP_MS] else []) ++
      stepEvents L ((clampPct T - L) / (rampSteps (clampPct T - L) : ℚ))
        (rampSteps (clampPct T - L)) ++
      (if COAST_BEFORE_JUMP_PCT ≤ |clampPct T - L| then
        [Event.coast, Event.delayMs COAST_AFTER_JUMP_MS] else []) := by
  obtain ⟨h1, h2, h3⟩ := safeRampLoop_uninterrupted env
    ((clampPct T - L) / (rampSteps (clampPct T - L) : ℚ)) hf hg
    (rampSteps (clampPct T - L)) L (faultActiveStep env fi).2 (guardOverVoltage env vi).vi
  have hne : ((rampSteps (clampPct T - L) : ℕ) : ℚ) ≠ 0 :=
    rampSteps_cast_ne_zero (clampPct T - L)
  simp only [safeRampTo, hf fi, Bool.false_eq_true, if_false, hg vi, rampCore]
  refine ⟨h3, ?_, ?_⟩
  · rw [h1, mul_comm, div_mul_cancel₀ _ hne]
    ring
  · rw [h2, h3]
    simp

theorem driveCount_append (l1 l2 : List Event) :
    driveCount (l1 ++ l2) = driveCount l1 + driveCount l2 := by
  induction l1 with
  | nil => simp [driveCount]
  | cons a es ih =>
    cases a with
    | drive p =>
      simp only [List.cons_append, driveCount, List.append_eq, ih]
      omega
    | coast => simp only [List.cons_append, driveCount, List.append_eq, ih]
    | delayMs m => simp only [List.cons_append, driveCount, List.append_eq, ih]

theorem coastCount_append (l1 l2 : List Event) :
    coastCount (l1 ++ l2) = coastCount l1 + coastCount l2 := by
  induction l1 with
  | nil => simp [coastCount]
  | cons a es ih =>
    cases a with
    | drive p => simp only [List.cons_append, coastCount, List.append_eq, ih]
    | coast =>
      simp only [List.cons_append, coastCount, List.append_eq, ih]
      omega
    | delayMs m => simp only [List.cons_append, coastCount, List.append_eq, ih]

theorem drives_append (l1 l2 : List Event) :
    drives (l1 ++ l2) = drives l1 ++ drives l2 := by
  induction l1 with
  | nil => simp [drives]
  | cons a es ih =>
    cases a with
    | drive p => simp only [List.cons_append, drives, List.append_eq, ih]
    | coast => simp only [List.cons_append, drives, List.append_eq, ih]
    | delayMs m => simp only [List.cons_append, drives, List.append_eq, ih]

theorem driveCount_eq_zero (l : List Event) (h : ∀ p : ℚ, Event.drive p ∉ l) :
    driveCount l = 0 := by
  induction l with
  | nil => rfl
  | cons a es ih =>
    cases a with
    | drive p => exact absurd (List.mem_cons_self _ _) (h p)
    | coast =>
      simp only [driveCount]
      exact ih fun p hp => h p (List.mem_cons_of_mem _ hp)
    | delayMs m =>
      simp only [driveCount]
      exact ih fun p hp => h p (List.mem_cons_of_mem _ hp)

theorem ovClearCond_true_iff (vb : ℚ) :
    ovClearCond vb = true ↔ 0 ≤ vb ∧ vb < VBUS_CLEAR_HYS_VOLTS := by
  simp [ovClearCond]

-- ==================== claim theorems ====================

/-- C2: for every target and every value of `LastCommandedDuty`, if
`faultActive()` returns true when `safeRampTo` is entered, exactly one
`coast()` call is made, zero `drive()` calls occur, and `LastCommandedDuty`
is unchanged when `safeRampTo` returns. -/
theorem safeRampTo_fault_entry (env : Env) (fi vi : ℕ) (L T : ℚ)
    (h : (faultActiveStep env fi).1 = true) :
    (safeRampTo env fi vi L T).last = L ∧
    (safeRampTo env fi vi L T).events = [Event.coast] ∧
    coastCount (safeRampTo env fi vi L T).events = 1 ∧
    driveCount (safeRampTo env fi vi L T).events = 0 := by
  simp [safeRampTo, h, coastCount, driveCount]

/-- Witness for C2: a fault active at entry (pin 0 reading LOW) leaves
`LastCommandedDuty = 50` and the trace is a single coast. -/
theorem safeRampTo_fault_entry_witness :
    (safeRampTo faultNowEnv 0 0 50 80).last = 50 ∧
    (safeRampTo faultNowEnv 0 0 50 80).events = [Event.coast] ∧
    coastCount (safeRampTo faultNowEnv 0 0 50 80).events = 1 ∧
    driveCount (safeRampTo faultNowEnv 0 0 50 80).events = 0 :=
  safeRampTo_fault_entry faultNowEnv 0 0 50 80 (by decide)

/-- C5: for every requested target of any magnitude or sign, if
`LastCommandedDuty ∈ [0,100]` at entry then every duty passed to `drive()`
lies in `[0,100]` and `LastCommandedDuty` is again in `[0,100]` on return,
whatever the fault/overvoltage environment does. -/
theorem safeRampTo_duty_in_range (env : Env) (fi vi : ℕ) (L T : ℚ)
    (h0 : 0 ≤ L) (h1 : L ≤ 100) :
    (∀ p, Event.drive p ∈ (safeRampTo env fi vi L T).events → 0 ≤ p ∧ p ≤ 100) ∧
    0 ≤ (safeRampTo env fi vi L T).last ∧ (safeRampTo env fi vi L T).last ≤ 100 := by
  by_cases hfa : (faultActiveStep env fi).1 = true
  · simp only [safeRampTo, hfa, if_true]
    exact ⟨by simp, h0, h1⟩
  · have hfa' : (faultActiveStep env fi).1 = false := by simpa using hfa
    by_cases hg : (guardOverVoltage env vi).tripped = true
    · simp only [safeRampTo, hfa', Bool.false_eq_true, if_false, hg, if_true]
      refine ⟨?_, le_refl 0, by norm_num⟩
      intro p hp
      exact absurd hp (guard_no_drive env vi p)
    · have hg' : (guardOverVoltage env vi).tripped = false := by simpa using hg
      simp only [safeRampTo, hfa', Bool.false_eq_true, if_false, hg', rampCore]
      have hbound := rampValue_bounds L (clampPct T) h0 h1
        (clampPct_nonneg T) (clampPct_le T)
        (rampSteps (clampPct T - L)) (rampSteps_pos (clampPct T - L))
      obtain ⟨hd, hl0, hl1⟩ := safeRampLoop_bounds env
        ((clampPct T - L) / (rampSteps (clampPct T - L) : ℚ))
        (rampSteps (clampPct T - L)) L
        (faultActiveStep env fi).2 (guardOverVoltage env vi).vi
        (fun k hk => hbound k hk)
      refine ⟨?_, hl0, hl1⟩
      intro p hp
      simp only [List.mem_append] at hp
      rcases hp with (hp | hp) | hp
      · split_ifs at hp <;> simp at hp
      · exact hd p hp
      · split_ifs at hp <;> simp at hp

/-- Witness for C5: ramping from 20 toward the out-of-range target 200
leaves `LastCommandedDuty` in `[0,100]`. -/
theorem safeRampTo_duty_in_range_witness :
    0 ≤ (safeRampTo inertEnv 0 0 20 200).last ∧
    (safeRampTo inertEnv 0 0 20 200).last ≤ 100 :=
  (safeRampTo_duty_in_range inertEnv 0 0 20 200 (by norm_num) (by norm_num)).2

/-- C9: in the shipped configuration (`FAULT_PIN = -1`,
`SUPPLY_ADC_PIN = -1`), `faultActive()` always returns false and
`guardOverVoltage` always returns false without invoking `coastFn`, so
every `safeRampTo` call runs uninterrupted to completion with
`LastCommandedDuty` reaching the clamped target. -/
theorem shipped_interlocks_inert (dr : ℕ → Bool) (ar : ℕ → ℤ)
    (fi vi : ℕ) (L T : ℚ) :
    faultActiveStep (shippedEnv dr ar) fi = (false, fi) ∧
    guardOverVoltage (shippedEnv dr ar) vi = ⟨false, vi, []⟩ ∧
    (safeRampTo (shippedEnv dr ar) fi vi L T).exit = ExitKind.completed ∧
    (safeRampTo (shippedEnv dr ar) fi vi L T).last = clampPct T := by
  have hf : ∀ k, (faultActiveStep (shippedEnv dr ar) k).1 = false := fun k => rfl
  have hg : ∀ k, (guardOverVoltage (shippedEnv dr ar) k).tripped = false := fun k => rfl
  obtain ⟨h1, h2, _⟩ := safeRampTo_uninterrupted (shippedEnv dr ar) hf hg fi vi L T
  exact ⟨rfl, rfl, h1, h2⟩

theorem drives_stepEvents_getLast (s : ℚ) :
    ∀ (n : ℕ) (last : ℚ),
      (drives (stepEvents last s (n + 1))).getLast? =
        some (last + ((n : ℚ) + 1) * s) := by
  intro n
  induction n with
  | zero =>
    intro last
    have hunf : drives (stepEvents last s 1) = [last + s] := rfl
    rw [hunf]
    simp
  | succ m ih =>
    intro last
    have hunf : drives (stepEvents last s (m + 1 + 1)) =
        (last + s) :: drives (stepEvents (last + s) s (m + 1)) := rfl
    rw [hunf]
    have h := ih (last + s)
    cases htail : drives (stepEvents (last + s) s (m + 1)) with
    | nil =>
      rw [htail] at h
      simp at h
    | cons b bs =>
      rw [htail] at h
      rw [List.getLast?_cons_cons, h]
      congr 1
      push_cast
      ring

theorem safeRampTo_driveCountEq (env : Env)
    (hf : ∀ k, (faultActiveStep env k).1 = false)
    (hg : ∀ k, (guardOverVoltage env k).tripped = false)
    (fi vi : ℕ) (L T : ℚ) :
    driveCount (safeRampTo env fi vi L T).events =
      max 1 (⌈|clampPct T - L| / MAX_SLEW_STEP_PCT⌉).toNat := by
  obtain ⟨_, _, h3⟩ := safeRampTo_uninterrupted env hf hg fi vi L T
  rw [h3, driveCount_append, driveCount_append, stepEvents_driveCount,
    ← rampSteps_eq_max]
  split_ifs <;> simp [driveCount]

theorem safeRampTo_lastDrive (env : Env)
    (hf : ∀ k, (faultActiveStep env k).1 = false)
    (hg : ∀ k, (guardOverVoltage env k).tripped = false)
    (fi vi : ℕ) (L T : ℚ) :
    (drives (safeRampTo env fi vi L T).events).getLast? = some (clampPct T) := by
  obtain ⟨_, _, h3⟩ := safeRampTo_uninterrupted env hf hg fi vi L T
  rw [h3, drives_append, drives_append]
  have hb1 : drives (if COAST_BEFORE_JUMP_PCT ≤ |clampPct T - L| then
      [Event.coast, Event.delayMs COAST_BEFORE_JUMP_MS] else []) = [] := by
    split_ifs <;> rfl
  have hb2 : drives (if COAST_BEFORE_JUMP_PCT ≤ |clampPct T - L| then
      [Event.coast, Event.delayMs COAST_AFTER_JUMP_MS] else []) = [] := by
    split_ifs <;> rfl
  rw [hb1, hb2, List.nil_append, List.append_nil]
  obtain ⟨m, hm⟩ : ∃ m, rampSteps (clampPct T - L) = m + 1 :=
    ⟨rampSteps (clampPct T - L) - 1,
      by have := rampSteps_pos (clampPct T - L); omega⟩
  rw [hm, drives_stepEvents_getLast]
  congr 1
  have hne : ((m : ℚ) + 1) ≠ 0 := by positivity
  push_cast
  field_simp

/-- C1 counterexample: with L = 20 and target 20 the step loop still runs
its minimum one iteration, so one `drive()` call occurs even though
`ceil(|T−L| / MAX_SLEW_STEP_PCT) = 0` — the claimed count formula fails. -/
theorem safeRampTo_count_cex :
    (⌈|clampPct 20 - (20 : ℚ)| / MAX_SLEW_STEP_PCT⌉).toNat = 0 ∧
    driveCount (safeRampTo inertEnv 0 0 20 20).events = 1 ∧
    driveCount (safeRampTo inertEnv 0 0 20 20).events ≠
      (⌈|clampPct 20 - (20 : ℚ)| / MAX_SLEW_STEP_PCT⌉).toNat := by
  have hc : clampPct 20 = (20 : ℚ) := by norm_num [clampPct]
  have h0 : (⌈|clampPct 20 - (20 : ℚ)| / MAX_SLEW_STEP_PCT⌉).toNat = 0 := by
    rw [hc]
    norm_num
  have h1 : driveCount (safeRampTo inertEnv 0 0 20 20).events = 1 := by
    rw [safeRampTo_driveCountEq inertEnv (fun k => rfl) (fun k => rfl) 0 0 20 20, hc]
    norm_num
  refine ⟨h0, h1, ?_⟩
  rw [h0, h1]
  omega

/-- C1 (amended): an uninterrupted `safeRampTo` leaves `LastCommandedDuty`
exactly at the clamped target, the number of `drive()` calls equals
`max 1 (ceil(|clamped T − L| / MAX_SLEW_STEP_PCT))` (the step loop always
runs at least one iteration, so a zero-delta ramp still makes one drive),
and the last drive is exactly the clamped target; in particular L=20, T=75
gives exactly 19 drive() calls, the last one driving exactly 75.0. -/
theorem safeRampTo_convergence (env : Env)
    (hf : ∀ k, (faultActiveStep env k).1 = false)
    (hg : ∀ k, (guardOverVoltage env k).tripped = false)
    (fi vi : ℕ) (L T : ℚ) (_hL0 : 0 ≤ L) (_hL1 : L ≤ 100) :
    (safeRampTo env fi vi L T).last = clampPct T ∧
    driveCount (safeRampTo env fi vi L T).events =
      max 1 (⌈|clampPct T - L| / MAX_SLEW_STEP_PCT⌉).toNat ∧
    (drives (safeRampTo env fi vi L T).events).getLast? = some (clampPct T) ∧
    driveCount (safeRampTo inertEnv 0 0 20 75).events = 19 ∧
    (drives (safeRampTo inertEnv 0 0 20 75).events).getLast? = some 75 := by
  obtain ⟨_, h2, _⟩ := safeRampTo_uninterrupted env hf hg fi vi L T
  have hc75 : clampPct 75 = (75 : ℚ) := by norm_num [clampPct]
  refine ⟨h2, safeRampTo_driveCountEq env hf hg fi vi L T,
    safeRampTo_lastDrive env hf hg fi vi L T, ?_, ?_⟩
  · rw [safeRampTo_driveCountEq inertEnv (fun k => rfl) (fun k => rfl) 0 0 20 75,
      hc75]
    have h55 : |(75 : ℚ) - 20| = 55 := by norm_num
    rw [h55]
    have hceil : (⌈(55 : ℚ) / MAX_SLEW_STEP_PCT⌉ : ℤ) = 19 := by
      simp only [MAX_SLEW_STEP_PCT]
      rw [Int.ceil_eq_iff]
      constructor <;> norm_num
    rw [hceil]
    rfl
  · rw [safeRampTo_lastDrive inertEnv (fun k => rfl) (fun k => rfl) 0 0 20 75,
      hc75]

/-- Witness for C1 (amended): the L=20, T=75 ramp under inert interlocks
reaches exactly 75 with 19 drive calls. -/
theorem safeRampTo_convergence_witness :
    (safeRampTo inertEnv 0 0 20 75).last = clampPct 75 ∧
    driveCount (safeRampTo inertEnv 0 0 20 75).events = 19 := by
  have h := safeRampTo_convergence inertEnv (fun k => rfl) (fun k => rfl)
    0 0 20 75 (by norm_num) (by norm_num)
  exact ⟨h.1, h.2.2.2.1⟩

/-- C6: with no fault or overvoltage, a ramp with `|delta|` at or above the
jump threshold brackets the step loop with exactly one coast (plus settle
delay) immediately before the first drive step and one coast (plus the
shorter settle delay) immediately after the last; below the threshold no
coast occurs at all. -/
theorem safeRampTo_jump_bracketing (env : Env)
    (hf : ∀ k, (faultActiveStep env k).1 = false)
    (hg : ∀ k, (guardOverVoltage env k).tripped = false)
    (fi vi : ℕ) (L T : ℚ) :
    (COAST_BEFORE_JUMP_PCT ≤ |clampPct T - L| →
      ∃ mid, (safeRampTo env fi vi L T).events =
          Event.coast :: Event.delayMs COAST_BEFORE_JUMP_MS ::
            (mid ++ [Event.coast, Event.delayMs COAST_AFTER_JUMP_MS]) ∧
        coastCount mid = 0 ∧ ∃ p, mid.head? = some (Event.drive p)) ∧
    (|clampPct T - L| < COAST_BEFORE_JUMP_PCT →
      coastCount (safeRampTo env fi vi L T).events = 0) := by
  obtain ⟨_, _, h3⟩ := safeRampTo_uninterrupted env hf hg fi vi L T
  constructor
  · intro hbig
    refine ⟨stepEvents L ((clampPct T - L) / (rampSteps (clampPct T - L) : ℚ))
      (rampSteps (clampPct T - L)), ?_, stepEvents_coastCount _ _ _, ?_⟩
    · rw [h3, if_pos hbig, if_pos hbig]
      simp
    · obtain ⟨m, hm⟩ : ∃ m, rampSteps (clampPct T - L) = m + 1 :=
        ⟨rampSteps (clampPct T - L) - 1,
          by have := rampSteps_pos (clampPct T - L); omega⟩
      rw [hm]
      exact ⟨_, rfl⟩
  · intro hsmall
    have hnot : ¬ COAST_BEFORE_JUMP_PCT ≤ |clampPct T - L| := not_le.mpr hsmall
    rw [h3, if_neg hnot, if_neg hnot]
    simp [coastCount_append, stepEvents_coastCount]

/-- Witness for C6: the 20 → 75 ramp (delta 55 ≥ 12) is coast-bracketed;
the 20 → 25 ramp (delta 5 < 12) makes no coast call. -/
theorem safeRampTo_jump_bracketing_witness :
    (∃ mid, (safeRampTo inertEnv 0 0 20 75).events =
        Event.coast :: Event.delayMs COAST_BEFORE_JUMP_MS ::
          (mid ++ [Event.coast, Event.delayMs COAST_AFTER_JUMP_MS]) ∧
      coastCount mid = 0 ∧ ∃ p, mid.head? = some (Event.drive p)) ∧
    coastCount (safeRampTo inertEnv 0 0 20 25).events = 0 := by
  constructor
  · exact (safeRampTo_jump_bracketing inertEnv (fun k => rfl) (fun k => rfl)
      0 0 20 75).1 (by norm_num [clampPct, COAST_BEFORE_JUMP_PCT])
  · exact (safeRampTo_jump_bracketing inertEnv (fun k => rfl) (fun k => rfl)
      0 0 20 25).2 (by norm_num [clampPct, COAST_BEFORE_JUMP_PCT])

/-- C8: ramping to a target whose clamped value equals the current
`LastCommandedDuty` makes zero net duty change: exactly one no-op `drive()`
call at duty `L`, and no coast calls. -/
theorem safeRampTo_idempotent (env : Env)
    (hf : ∀ k, (faultActiveStep env k).1 = false)
    (hg : ∀ k, (guardOverVoltage env k).tripped = false)
    (fi vi : ℕ) (L T : ℚ) (_h0 : 0 ≤ L) (_h1 : L ≤ 100) (hT : clampPct T = L) :
    (safeRampTo env fi vi L T).last = L ∧
    (safeRampTo env fi vi L T).events = [Event.drive L, Event.delayMs SLEW_STEP_MS] ∧
    driveCount (safeRampTo env fi vi L T).events = 1 ∧
    coastCount (safeRampTo env fi vi L T).events = 0 := by
  obtain ⟨_, h2, h3⟩ := safeRampTo_uninterrupted env hf hg fi vi L T
  have hd : clampPct T - L = 0 := by rw [hT]; ring
  rw [hT] at h2
  rw [hd] at h3
  have hsteps : rampSteps 0 = 1 := by
    simp [rampSteps, MAX_SLEW_STEP_PCT]
  have hif : ¬ COAST_BEFORE_JUMP_PCT ≤ |(0 : ℚ)| := by
    norm_num [COAST_BEFORE_JUMP_PCT]
  rw [if_neg hif, if_neg hif, hsteps] at h3
  simp only [Nat.cast_one, zero_div, stepEvents, add_zero, List.nil_append,
    List.append_nil] at h3
  rw [h3]
  exact ⟨h2, rfl, rfl, rfl⟩

/-- Witness for C8: ramping from 20 to 20 under inert interlocks. -/
theorem safeRampTo_idempotent_witness :
    (safeRampTo inertEnv 0 0 20 20).last = 20 ∧
    (safeRampTo inertEnv 0 0 20 20).events =
      [Event.drive 20, Event.delayMs SLEW_STEP_MS] := by
  have h := safeRampTo_idempotent inertEnv (fun k => rfl) (fun k => rfl)
    0 0 20 20 (by norm_num) (by norm_num) (by norm_num [clampPct])
  exact ⟨h.1, h.2.1⟩

theorem guard_trip_full_wait (env : Env) (vi : ℕ)
    (hpin : 0 ≤ env.supplyAdcPin)
    (htrip : VBUS_OV_LIMIT_VOLTS < readVbusVolts env vi)
    (hnc : ∀ j, j < OV_WAIT_POLLS →
      ovClearCond (readVbusVolts env (vi + 1 + j)) = false) :
    (guardOverVoltage env vi).tripped = true ∧
    (guardOverVoltage env vi).events =
      Event.coast :: List.replicate OV_WAIT_POLLS (Event.delayMs OV_POLL_MS) := by
  have hp : ¬ env.supplyAdcPin < 0 := not_lt.mpr hpin
  have ht : 0 ≤ readVbusVolts env vi ∧ readVbusVolts env vi > VBUS_OV_LIMIT_VOLTS :=
    ⟨le_trans (by norm_num [VBUS_OV_LIMIT_VOLTS]) htrip.le, htrip⟩
  have hw := ovWait_full env OV_WAIT_POLLS (vi + 1) hnc
  simp only [guardOverVoltage]
  rw [if_neg hp, if_pos ht, hw]
  exact ⟨rfl, rfl⟩

/-- C3: with voltage sensing enabled and a reading above the 28 V trip
threshold, `guardOverVoltage` invokes `coastFn()` immediately and reports
tripped — for every wait-loop reading sequence, including ones that never
clear before the 3000 ms timeout (there is no distinct timeout result) —
and `safeRampTo`, on a tripped report at entry or at a per-step re-check,
resets `LastCommandedDuty` to 0 and makes no further `drive()` calls after
the trip's coast. -/
theorem guard_trip_coast_and_reset :
    (∀ (env : Env) (vi : ℕ), 0 ≤ env.supplyAdcPin →
      VBUS_OV_LIMIT_VOLTS < readVbusVolts env vi →
      (guardOverVoltage env vi).tripped = true ∧
      (guardOverVoltage env vi).events.head? = some Event.coast ∧
      ∀ p : ℚ, Event.drive p ∉ (guardOverVoltage env vi).events) ∧
    (∀ (env : Env) (fi vi : ℕ) (L T : ℚ),
      (faultActiveStep env fi).1 = false →
      (guardOverVoltage env vi).tripped = true →
      (safeRampTo env fi vi L T).last = 0 ∧
      driveCount (safeRampTo env fi vi L T).events = 0) ∧
    (∀ (env : Env) (fi vi : ℕ) (L T : ℚ),
      (safeRampTo env fi vi L T).exit = ExitKind.ovAbort →
      (safeRampTo env fi vi L T).last = 0 ∧
      ∃ pre suf, (safeRampTo env fi vi L T).events = pre ++ Event.coast :: suf ∧
        ∀ p : ℚ, Event.drive p ∉ Event.coast :: suf) := by
  refine ⟨?_, ?_, fun env fi vi L T h => safeRampTo_ovAbort_shape env fi vi L T h⟩
  · intro env vi hpin htrip
    have hp : ¬ env.supplyAdcPin < 0 := not_lt.mpr hpin
    have ht : 0 ≤ readVbusVolts env vi ∧
        readVbusVolts env vi > VBUS_OV_LIMIT_VOLTS :=
      ⟨le_trans (by norm_num [VBUS_OV_LIMIT_VOLTS]) htrip.le, htrip⟩
    have htr : (guardOverVoltage env vi).tripped = true := by
      simp only [guardOverVoltage]
      rw [if_neg hp, if_pos ht]
    obtain ⟨w, hw, hnd⟩ := guard_tripped_shape env vi htr
    refine ⟨htr, ?_, ?_⟩
    · rw [hw]
      rfl
    · rw [hw]
      exact hnd
  · intro env fi vi L T hfa hg
    simp only [safeRampTo, hfa, Bool.false_eq_true, if_false, hg, if_true]
    exact ⟨by simp, driveCount_eq_zero _ (guard_no_drive env vi)⟩

/-- Witness for C3: in `ovBandEnv` (sensing on pin 0, first reading about
29.55 V) the guard trips with a leading coast, and a `safeRampTo` entered
under it resets `LastCommandedDuty` from 50 to 0. -/
theorem guard_trip_coast_and_reset_witness :
    (guardOverVoltage ovBandEnv 0).tripped = true ∧
    (guardOverVoltage ovBandEnv 0).events.head? = some Event.coast ∧
    (safeRampTo ovBandEnv 0 0 50 80).last = 0 ∧
    driveCount (safeRampTo ovBandEnv 0 0 50 80).events = 0 := by
  have h1 := guard_trip_coast_and_reset.1 ovBandEnv 0 (by norm_num [ovBandEnv])
    (by norm_num [readVbusVolts, ovBandEnv, VDIV_RATIO, VBUS_OV_LIMIT_VOLTS])
  have h2 := guard_trip_coast_and_reset.2.1 ovBandEnv 0 0 50 80 rfl h1.1
  exact ⟨h1.1, h1.2.1, h2.1, h2.2⟩

/-- C4: after a trip, the guard's wait loop never reports clear while the
reading stays at or above the 26.5 V clear threshold: any reading sequence
inside the hysteresis band [26.5, 28] keeps the guard tripped for the whole
300-poll (3000 ms) wait, the wait exits early only when some reading is
non-negative and strictly below 26.5 V, and neither 28 V nor 26.5 V itself
satisfies the clear condition. -/
theorem guard_hysteresis_band :
    (∀ (env : Env) (vi : ℕ), 0 ≤ env.supplyAdcPin →
      VBUS_OV_LIMIT_VOLTS < readVbusVolts env vi →
      (∀ j, j < OV_WAIT_POLLS →
        VBUS_CLEAR_HYS_VOLTS ≤ readVbusVolts env (vi + 1 + j) ∧
        readVbusVolts env (vi + 1 + j) ≤ VBUS_OV_LIMIT_VOLTS) →
      (guardOverVoltage env vi).tripped = true ∧
      (guardOverVoltage env vi).events =
        Event.coast :: List.replicate OV_WAIT_POLLS (Event.delayMs OV_POLL_MS)) ∧
    (∀ (env : Env) (fuel vi : ℕ),
      (ovWait env vi fuel).2.length < fuel →
      ∃ j, j < fuel ∧ 0 ≤ readVbusVolts env (vi + j) ∧
        readVbusVolts env (vi + j) < VBUS_CLEAR_HYS_VOLTS) ∧
    ovClearCond VBUS_OV_LIMIT_VOLTS = false ∧
    ovClearCond VBUS_CLEAR_HYS_VOLTS = false := by
  refine ⟨?_, ?_, ?_, ?_⟩
  · intro env vi hpin htrip hband
    refine guard_trip_full_wait env vi hpin htrip ?_
    intro j hj
    have hb := (hband j hj).1
    simp only [ovClearCond, decide_eq_false_iff_not]
    intro hc
    exact absurd hc.2 (not_lt.mpr hb)
  · intro env fuel vi hlen
    obtain ⟨j, hj, hc⟩ := ovWait_early env fuel vi hlen
    exact ⟨j, hj, (ovClearCond_true_iff _).mp hc⟩
  · simp [ovClearCond, VBUS_OV_LIMIT_VOLTS, VBUS_CLEAR_HYS_VOLTS]
    norm_num
  · simp [ovClearCond]

/-- Witness for C4: in `ovBandEnv` the trip reading is about 29.55 V and all
wait readings are about 27.18 V (inside the band), so the guard stays
tripped through all 300 polls. -/
theorem guard_hysteresis_band_witness :
    (guardOverVoltage ovBandEnv 0).tripped = true ∧
    (guardOverVoltage ovBandEnv 0).events =
      Event.coast :: List.replicate OV_WAIT_POLLS (Event.delayMs OV_POLL_MS) := by
  refine guard_hysteresis_band.1 ovBandEnv 0 (by norm_num [ovBandEnv])
    (by norm_num [readVbusVolts, ovBandEnv, VDIV_RATIO, VBUS_OV_LIMIT_VOLTS]) ?_
  intro j hj
  have hread : readVbusVolts ovBandEnv (0 + 1 + j) = 22264 / 819 := by
    simp [readVbusVolts, ovBandEnv, VDIV_RATIO]
    norm_num
  rw [hread]
  constructor
  · norm_num [VBUS_CLEAR_HYS_VOLTS]
  · norm_num [VBUS_OV_LIMIT_VOLTS]

/-- C10: a negative `readVbusVolts` value never satisfies the wait loop's
clear condition (which requires a non-negative reading strictly below the
26.5 V clear threshold); if every reading during the wait is negative the
guard completes the full 300-poll (3000 ms) wait and still returns
tripped. -/
theorem guard_negative_never_clears :
    (∀ vb : ℚ, vb < 0 → ovClearCond vb = false) ∧
    (∀ (env : Env) (vi : ℕ), 0 ≤ env.supplyAdcPin →
      VBUS_OV_LIMIT_VOLTS < readVbusVolts env vi →
      (∀ j, j < OV_WAIT_POLLS → readVbusVolts env (vi + 1 + j) < 0) →
      (guardOverVoltage env vi).tripped = true ∧
      (guardOverVoltage env vi).events =
        Event.coast :: List.replicate OV_WAIT_POLLS (Event.delayMs OV_POLL_MS)) := by
  have hneg : ∀ vb : ℚ, vb < 0 → ovClearCond vb = false := by
    intro vb hvb
    simp only [ovClearCond, decide_eq_false_iff_not]
    intro hc
    exact absurd hc.1 (not_le.mpr hvb)
  refine ⟨hneg, ?_⟩
  intro env vi hpin htrip hnegread
  exact guard_trip_full_wait env vi hpin htrip
    (fun j hj => hneg _ (hnegread j hj))

/-- Witness for C10: in `ovNegEnv` the trip reading is about 29.55 V and
every later reading is negative, so the guard waits all 300 polls and
stays tripped. -/
theorem guard_negative_never_clears_witness :
    (guardOverVoltage ovNegEnv 0).tripped = true ∧
    (guardOverVoltage ovNegEnv 0).events =
      Event.coast :: List.replicate OV_WAIT_POLLS (Event.delayMs OV_POLL_MS) := by
  refine guard_negative_never_clears.2 ovNegEnv 0 (by norm_num [ovNegEnv])
    (by norm_num [readVbusVolts, ovNegEnv, VDIV_RATIO, VBUS_OV_LIMIT_VOLTS]) ?_
  intro j hj
  have hread : readVbusVolts ovNegEnv (0 + 1 + j) = -121 / 40950 := by
    simp [readVbusVolts, ovNegEnv, VDIV_RATIO]
    norm_num
  rw [hread]
  norm_num

theorem safeRampTo_faultEnv_eval :
    safeRampTo faultEnv 0 0 0 6 =
      ⟨6, 3, 0, [Event.drive 3, Event.delayMs SLEW_STEP_MS, Event.coast],
        ExitKind.faultAbort⟩ := by
  have hc : clampPct (6 : ℚ) - 0 = 6 := by norm_num [clampPct]
  have habs : |(6 : ℚ)| = 6 := by norm_num
  have hceil2 : (⌈(6 : ℚ) / MAX_SLEW_STEP_PCT⌉ : ℤ) = 2 := by
    rw [show (6 : ℚ) / MAX_SLEW_STEP_PCT = 2 by norm_num [MAX_SLEW_STEP_PCT]]
    simp
  have hsteps : rampSteps (6 : ℚ) = 2 := by
    unfold rampSteps
    rw [habs, hceil2]
    rfl
  have hs : ((6 : ℚ)) / ((2 : ℕ) : ℚ) = 3 := by norm_num
  simp only [safeRampTo, rampCore, hc, habs, hsteps, hs]
  norm_num [faultActiveStep, faultEnv, FAULT_ACTIVE_LOW, guardOverVoltage,
    COAST_BEFORE_JUMP_PCT, safeRampLoop]

/-- C7 counterexample: with the fault becoming active at the second loop
iteration of a 0 → 6 ramp (stepSize 3), the code returns with
`LastCommandedDuty = 6`, one step beyond the value 3 last passed to
`drive()` — the aborting iteration does modify `LastCommandedDuty`, so it
is not equal to the duty last driven. -/
theorem safeRampTo_fault_midloop_cex :
    (safeRampTo faultEnv 0 0 0 6).exit = ExitKind.faultAbort ∧
    drives (safeRampTo faultEnv 0 0 0 6).events = [3] ∧
    (safeRampTo faultEnv 0 0 0 6).last = 6 ∧
    (safeRampTo faultEnv 0 0 0 6).last ≠ 3 := by
  rw [safeRampTo_faultEnv_eval]
  norm_num [drives]

/-- C7 (amended): when `safeRampTo` passes its entry checks but aborts on a
fault at a per-step re-check, it calls `coast()` (the trace ends with the
coast) and returns with `LastCommandedDuty` advanced one `stepSize` beyond
the duty last passed to `drive()`: the aborting iteration executes
`lastPct += stepSize` before the fault check, so the final value is
`L + (driveCount + 1) · stepSize`, not the value last driven. -/
theorem safeRampTo_fault_midloop (env : Env) (fi vi : ℕ) (L T : ℚ)
    (hf0 : (faultActiveStep env fi).1 = false)
    (hg0 : (guardOverVoltage env vi).tripped = false)
    (hab : (safeRampTo env fi vi L T).exit = ExitKind.faultAbort) :
    (safeRampTo env fi vi L T).last =
      L + ((driveCount (safeRampTo env fi vi L T).events : ℚ) + 1) *
        ((clampPct T - L) / (rampSteps (clampPct T - L) : ℚ)) ∧
    (safeRampTo env fi vi L T).events.getLast? = some Event.coast := by
  simp only [safeRampTo, hf0, Bool.false_eq_true, if_false, hg0, rampCore]
    at hab ⊢
  obtain ⟨h1, h2⟩ := safeRampLoop_faultAbort env _ _ L (faultActiveStep env fi).2
    (guardOverVoltage env vi).vi hab
  have hcond : ¬ ((safeRampLoop env
      ((clampPct T - L) / (rampSteps (clampPct T - L) : ℚ))
      (rampSteps (clampPct T - L)) L (faultActiveStep env fi).2
      (guardOverVoltage env vi).vi).exit = ExitKind.completed ∧
      COAST_BEFORE_JUMP_PCT ≤ |clampPct T - L|) := by
    rw [hab]
    simp
  have hpre : driveCount (if COAST_BEFORE_JUMP_PCT ≤ |clampPct T - L| then
      [Event.coast, Event.delayMs COAST_BEFORE_JUMP_MS] else []) = 0 := by
    split_ifs <;> rfl
  have hne : (safeRampLoop env
      ((clampPct T - L) / (rampSteps (clampPct T - L) : ℚ))
      (rampSteps (clampPct T - L)) L (faultActiveStep env fi).2
      (guardOverVoltage env vi).vi).events ≠ [] := by
    intro hnil
    rw [hnil] at h2
    simp at h2
  rw [if_neg hcond, List.append_nil, driveCount_append, hpre]
  constructor
  · simpa using h1
  · rw [List.getLast?_append_of_ne_nil _ hne]
    exact h2

/-- Witness for C7 (amended): the 0 → 6 ramp in `faultEnv` aborts at the
second iteration; `LastCommandedDuty` ends at `0 + (1 + 1) · 3 = 6`. -/
theorem safeRampTo_fault_midloop_witness :
    (safeRampTo faultEnv 0 0 0 6).last =
      0 + ((driveCount (safeRampTo faultEnv 0 0 0 6).events : ℚ) + 1) *
        ((clampPct 6 - 0) / (rampSteps (clampPct 6 - 0) : ℚ)) ∧
    (safeRampTo faultEnv 0 0 0 6).events.getLast? = some Event.coast :=
  safeRampTo_fault_midloop faultEnv 0 0 0 6 (by decide) rfl
    (by rw [safeRampTo_faultEnv_eval])

end MCPWMTemp
